import Mathlib

/-!
# Verification of the aqar-scraper job pipeline (`src/server.js`)

Shallow embedding of the scraping service's core logic:

* the per-anchor extraction routine run by `page.evaluate` (price regex,
  category-marker filter, title fallback, area regex);
* the `Map`-based deduplication `[...new Map(list.map(i => [i.link, i])).values()]`;
* the `runScraper` job driver, modelled as the sequence of `jobs.set` writes
  (plus the `browser.close()` event) it performs for one job, parameterised by
  an abstract browser driver whose fallible operations return `Except`.

All definitions are executable; theorems at the end settle the specification
claims.
-/

/-- One extracted listing record, as built inside `page.evaluate`. -/
structure Listing where
  title : String
  price : String
  area : String
  link : String
deriving DecidableEq, Repr

/-- A rendered anchor (`<a>`) element as seen by the extraction routine:
its `innerText`, the `innerText` of a nested `h3`/`h4` if present
(`querySelector('h3, h4')?.innerText`), and its resolved `href`. -/
structure Anchor where
  innerText : String
  headingText : Option String
  href : String
deriving DecidableEq, Repr

/-! ## Price regex `/[0-9]{1,3}(?:,[0-9]{3})+(?:\.[0-9]+)?/`

Modelled with JS backtracking semantics: leftmost starting position wins;
`{1,3}` greedily tries 3, then 2, then 1 digits; the `+` group and the
optional decimal suffix are maximal (nothing follows them in the pattern,
so greedy consumption is final). -/

/-- One or more `,ddd` groups, maximal.  Returns the consumed characters and
the remainder, or `none` if no group starts here. -/
def grpChars : List Char → Option (List Char × List Char)
  | ',' :: a :: b :: c :: rest =>
    if a.isDigit && b.isDigit && c.isDigit then
      match grpChars rest with
      | some (g, r) => some (',' :: a :: b :: c :: g, r)
      | none => some ([',', a, b, c], rest)
    else none
  | _ => none

/-- Optional decimal suffix `(?:\.[0-9]+)?`: consumed characters and remainder. -/
def decChars : List Char → List Char × List Char
  | '.' :: rest =>
    let ds := rest.takeWhile Char.isDigit
    if ds.isEmpty then ([], '.' :: rest) else ('.' :: ds, rest.drop ds.length)
  | cs => ([], cs)

/-- Try to match the price pattern here with exactly `k` leading digits. -/
def tryLen (k : Nat) (cs : List Char) : Option (List Char) :=
  let ds := cs.take k
  if ds.length = k && ds.all Char.isDigit then
    match grpChars (cs.drop k) with
    | some (g, r) => some (ds ++ g ++ (decChars r).1)
    | none => none
  else none

/-- Match the price pattern at the current position (`{1,3}` greedy: 3,2,1). -/
def matchAt (cs : List Char) : Option (List Char) :=
  match tryLen 3 cs with
  | some m => some m
  | none =>
    match tryLen 2 cs with
    | some m => some m
    | none => tryLen 1 cs

/-- Leftmost match of the price pattern. -/
def priceScan : List Char → Option (List Char)
  | [] => none
  | c :: rest =>
    match matchAt (c :: rest) with
    | some m => some m
    | none => priceScan rest

/-- `text.match(/[0-9]{1,3}(?:,[0-9]{3})+(?:\.[0-9]+)?/)?.[0]` -/
def priceMatch (s : String) : Option String :=
  (priceScan s.data).map String.mk

/-! ## Area regex `/([0-9]+)\s*م²/` (capture group 1) -/

/-- JS `\s` on the whitespace characters relevant here (ASCII whitespace). -/
def isWs (c : Char) : Bool :=
  c = ' ' || c = '\t' || c = '\n' || c = '\r' || c = '\x0b' || c = '\x0c'

/-- Match `([0-9]+)\s*م²` at the current position, returning the capture. -/
def areaAt (cs : List Char) : Option (List Char) :=
  let ds := cs.takeWhile Char.isDigit
  if ds.isEmpty then none
  else
    match (cs.drop ds.length).dropWhile isWs with
    | 'م' :: '²' :: _ => some ds
    | _ => none

/-- Leftmost match of the area pattern (capture group). -/
def areaScan : List Char → Option (List Char)
  | [] => none
  | c :: rest =>
    match areaAt (c :: rest) with
    | some d => some d
    | none => areaScan rest

/-- `text.match(/([0-9]+)\s*م²/)?.[1]` -/
def areaMatch (s : String) : Option String :=
  (areaScan s.data).map String.mk

/-! ## Substring containment (`String.prototype.includes`) -/

/-- Does `pat` occur at the head of `cs`? -/
def prefixMatch : List Char → List Char → Bool
  | [], _ => true
  | _ :: _, [] => false
  | a :: as, b :: bs => a = b && prefixMatch as bs

/-- Does `pat` occur anywhere in `cs`? -/
def includesSub (pat : List Char) : List Char → Bool
  | [] => prefixMatch pat []
  | c :: rest => prefixMatch pat (c :: rest) || includesSub pat rest

/-- `s.includes(pat)` -/
def strIncludes (s pat : String) : Bool :=
  includesSub pat.data s.data

/-- The category-listing marker phrase filtered out by the extractor. -/
def catMarker : String := "عقارات في"

/-- `text.split('\n')[0].substring(0, 100)` -/
def fallbackTitle (t : String) : String :=
  String.mk ((t.data.takeWhile (fun c => c ≠ '\n')).take 100)

/-- The per-anchor body of the `page.evaluate` extraction: `null` (here `none`)
when the text contains the category marker or has no price-like token;
otherwise a record with title (nested heading text if truthy, else first line
truncated to 100 chars), matched price, area capture or `"N/A"`, and the href. -/
def extractOne (a : Anchor) : Option Listing :=
  if strIncludes a.innerText catMarker then none
  else
    match priceMatch a.innerText with
    | none => none
    | some p =>
      some
        { title :=
            match a.headingText with
            | some h => if h = "" then fallbackTitle a.innerText else h
            | none => fallbackTitle a.innerText
          price := p
          area := (areaMatch a.innerText).getD "N/A"
          link := a.href }

/-- `links.map(...).filter(item => item !== null)` over a page's anchors. -/
def extractPage (anchors : List Anchor) : List Listing :=
  anchors.filterMap extractOne

/-! ## Deduplication `[...new Map(all.map(item => [item.link, item])).values()]`

A JS `Map` keeps keys in first-insertion order; `set` on an existing key
replaces the value in place.  Modelled as an association list. -/

/-- `Map.prototype.set`: replace in place if the key exists, else append. -/
def mapUpsert (m : List (String × Listing)) (k : String) (v : Listing) :
    List (String × Listing) :=
  if k ∈ m.map Prod.fst then
    m.map (fun p => if p.1 = k then (k, v) else p)
  else m ++ [(k, v)]

/-- The dedupe step used on the accumulated listings. -/
def dedupe (l : List Listing) : List Listing :=
  (l.foldl (fun m item => mapUpsert m item.link item) []).map Prod.snd

/-- Keep the first occurrence of each element (first-seen key order). -/
def insertKey (acc : List String) (k : String) : List String :=
  if k ∈ acc then acc else acc ++ [k]

/-- The distinct elements of a list in order of first occurrence. -/
def firstSeen (ks : List String) : List String :=
  ks.foldl insertKey []

/-- The last record in `l` whose `link` is `k`, if any. -/
def lastWithLink : List Listing → String → Option Listing
  | [], _ => none
  | r :: rs, k =>
    match lastWithLink rs k with
    | some v => some v
    | none => if r.link = k then some r else none

/-! ## Job records and the `runScraper` write trace

`jobs` is a `Map<string, object>`; each `jobs.set(jobId, {...})` replaces the
whole record.  A job record is modelled with `Option` fields for keys a given
object literal may omit (reading an absent key yields `undefined`).
`completedAt : Bool` records presence of the timestamp (its value is opaque).
-/

/-- `status` values appearing in `server.js`. -/
inductive Status
  | queued
  | running
  | completed
  | failed
deriving DecidableEq, Repr

/-- One value stored in the `jobs` map. -/
structure Job where
  status : Status
  progress : Nat
  currentPage : Option Nat := none
  totalPages : Option Nat := none
  data : List Listing := []
  count : Option Nat := none
  error : Option String := none
  completedAt : Bool := false
deriving DecidableEq, Repr

/-- `Math.round((i / maxPages) * 100)` as exact rational half-up rounding:
`⌊(100·i/m) + 1/2⌋ = (200·i + m) / (2·m)` (the double-precision computation
agrees on all values reachable here). -/
def progressOf (i m : Nat) : Nat := (200 * i + m) / (2 * m)

/-- The record written by `POST /scrape` on submission (line 143). -/
def queuedJob : Job := { status := .queued, progress := 0 }

/-- The record written at the top of `runScraper` (line 18). -/
def startJob : Job := { status := .running, progress := 0 }

/-- The per-page record written inside the loop (lines 43–50). -/
def runningJob (i m : Nat) : Job :=
  { status := .running, progress := progressOf i m
    currentPage := some i, totalPages := some m }

/-- The record written by the `catch` block (lines 115–120). -/
def failedJob (e : String) : Job :=
  { status := .failed, progress := 0, error := some e }

/-- The record written on completion (lines 102–109); note it carries no
`currentPage`/`totalPages` keys. -/
def completedJob (l : List Listing) : Job :=
  { status := .completed, progress := 100, count := some l.length
    data := l, completedAt := true }

/-- Abstract browser driver: every operation `runScraper` awaits, as a value
(`Except.error e` models the promise rejecting with message `e`).
Per-iteration operations are indexed by the loop counter `i`. -/
structure Driver where
  launch : Except String Unit
  newPage : Except String Unit
  nav : Except String Unit
  evalPage : Nat → Except String (List Anchor)
  nextVisible : Nat → Except String Bool
  clickNext : Nat → Except String Unit

/-- Observable events of one `runScraper` run: `jobs.set` writes for this
job's id, and the `browser.close()` call. -/
inductive Event
  | write (j : Job)
  | close
deriving DecidableEq, Repr

/-- The `for (let i = 1; i <= maxPages; i++)` loop body, lines 39–96.
`fuel` is the number of iterations still allowed (`maxPages + 1 - i`).
Returns the events emitted and either the accumulated listings
(loop finished or `break`) or the error that escaped to the `catch`. -/
def loop (d : Driver) (m : Nat) :
    Nat → Nat → List Listing → List Event × Except String (List Listing)
  | 0, _, acc => ([], .ok acc)
  | fuel + 1, i, acc =>
    let ev := Event.write (runningJob i m)
    match d.evalPage i with
    | .error e => ([ev], .error e)
    | .ok anchors =>
      let acc2 := acc ++ extractPage anchors
      if i < m then
        match d.nextVisible i with
        | .error e => ([ev], .error e)
        | .ok true =>
          match d.clickNext i with
          | .error e => ([ev], .error e)
          | .ok _ =>
            let r := loop d m fuel (i + 1) acc2
            (ev :: r.1, r.2)
        | .ok false => ([ev], .ok acc2)
      else ([ev], .ok acc2)

/-- The `try` block (lines 34–111) together with the `catch` write. -/
def tryBody (d : Driver) (m : Nat) : List Event :=
  match d.nav with
  | .error e => [Event.write (failedJob e)]
  | .ok _ =>
    let r := loop d m m 1 []
    match r.2 with
    | .error e => r.1 ++ [Event.write (failedJob e)]
    | .ok acc => r.1 ++ [Event.write (completedJob (dedupe acc))]

/-- The events of one `runScraper(jobId, originUrl, maxPages)` call.
`chromium.launch()` and `browser.newPage()` sit *outside* the
`try`/`catch`/`finally` (lines 21–31): if either rejects, the async function
rejects with no further writes and no `browser.close()`. -/
def runScraper (d : Driver) (m : Nat) : List Event :=
  Event.write startJob ::
    match d.launch with
    | .error _ => []
    | .ok _ =>
      match d.newPage with
      | .error _ => []
      | .ok _ => tryBody d m ++ [Event.close]

/-- The whole write/close trace for one job: the `queued` write done by the
`POST /scrape` handler, then the background `runScraper` run. -/
def jobTrace (d : Driver) (m : Nat) : List Event :=
  Event.write queuedJob :: runScraper d m

/-- The sequence of job-store values a poller can observe, in write order. -/
def writesOf : List Event → List Job
  | [] => []
  | Event.write j :: evs => j :: writesOf evs
  | Event.close :: evs => writesOf evs

/-- The per-page progress writes (the only ones carrying `totalPages`). -/
def pageWrites (l : List Job) : List Job :=
  l.filter (fun w => w.totalPages.isSome)

/-- `const maxPages = limit_pages || 1` (line 140): JS `||` takes the fallback
on falsy values; for an integer-or-absent field those are `0`, `null` and
`undefined` (modelled as `some 0` and `none`). -/
def resolveMaxPages : Option Int → Int
  | none => 1
  | some v => if v = 0 then 1 else v

/-- The pages `i, i+1, …, i+k-1`. -/
def pagesFrom (i : Nat) : Nat → List Nat
  | 0 => []
  | k + 1 => i :: pagesFrom (i + 1) k

/-! ## Deduplication lemmas -/

theorem upsert_keys (m : List (String × Listing)) (k : String) (v : Listing) :
    (mapUpsert m k v).map Prod.fst = insertKey (m.map Prod.fst) k := by
  unfold mapUpsert insertKey
  by_cases h : k ∈ m.map Prod.fst
  · rw [if_pos h, if_pos h, List.map_map]
    apply List.map_congr_left
    intro p _
    by_cases hp : p.1 = k
    · simp [Function.comp, hp]
    · simp [Function.comp, hp]
  · rw [if_neg h, if_neg h]
    simp

theorem upsert_link_inv {m : List (String × Listing)} {k : String} {v : Listing}
    (hm : ∀ p ∈ m, p.2.link = p.1) (hv : v.link = k) :
    ∀ p ∈ mapUpsert m k v, p.2.link = p.1 := by
  intro p hp
  unfold mapUpsert at hp
  by_cases h : k ∈ m.map Prod.fst
  · rw [if_pos h] at hp
    rcases List.mem_map.1 hp with ⟨q, hq, rfl⟩
    by_cases hqk : q.1 = k
    · simp [hqk, hv]
    · simpa [hqk] using hm q hq
  · rw [if_neg h] at hp
    rcases List.mem_append.1 hp with hp | hp
    · exact hm p hp
    · rw [List.mem_singleton] at hp
      subst hp
      exact hv

theorem upsert_mem_key_eq {m : List (String × Listing)} {k : String} {v : Listing}
    {p : String × Listing} (hp : p ∈ mapUpsert m k v) (hk : p.1 = k) : p = (k, v) := by
  unfold mapUpsert at hp
  by_cases h : k ∈ m.map Prod.fst
  · rw [if_pos h] at hp
    rcases List.mem_map.1 hp with ⟨q, hq, rfl⟩
    by_cases hqk : q.1 = k
    · simp [hqk]
    · rw [if_neg hqk] at hk
      exact absurd hk hqk
  · rw [if_neg h] at hp
    rcases List.mem_append.1 hp with hp | hp
    · exact absurd (hk ▸ List.mem_map_of_mem Prod.fst hp) h
    · rwa [List.mem_singleton] at hp

theorem upsert_mem_key_ne {m : List (String × Listing)} {k : String} {v : Listing}
    {p : String × Listing} (hp : p ∈ mapUpsert m k v) (hk : p.1 ≠ k) : p ∈ m := by
  unfold mapUpsert at hp
  by_cases h : k ∈ m.map Prod.fst
  · rw [if_pos h] at hp
    rcases List.mem_map.1 hp with ⟨q, hq, rfl⟩
    by_cases hqk : q.1 = k
    · rw [if_pos hqk] at hk ⊢
      exact absurd rfl hk
    · rwa [if_neg hqk]
  · rw [if_neg h] at hp
    rcases List.mem_append.1 hp with hp | hp
    · exact hp
    · rw [List.mem_singleton] at hp
      subst hp
      exact absurd rfl hk

theorem lastWithLink_cons_of_some {xs : List Listing} {x : Listing} {k : String}
    {v : Listing} (h : lastWithLink xs k = some v) :
    lastWithLink (x :: xs) k = some v := by
  unfold lastWithLink
  rw [h]

theorem lastWithLink_cons_of_none {xs : List Listing} {x : Listing} {k : String}
    (h : lastWithLink xs k = none) :
    lastWithLink (x :: xs) k = if x.link = k then some x else none := by
  unfold lastWithLink
  rw [h]

/-- Main invariant of the fold building the JS `Map`: its key list is the
first-seen key order of the processed records (continuing from the initial
map's keys), every entry's value has the entry's key as its link, and every
entry's value is the last processed record with that link (or was already in
the initial map and no processed record has its key). -/
theorem dedupe_core (l : List Listing) :
    ∀ m0 : List (String × Listing), (∀ p ∈ m0, p.2.link = p.1) →
      ((l.foldl (fun m item => mapUpsert m item.link item) m0).map Prod.fst
          = (l.map Listing.link).foldl insertKey (m0.map Prod.fst)) ∧
      ∀ p ∈ l.foldl (fun m item => mapUpsert m item.link item) m0,
        p.2.link = p.1 ∧
          (lastWithLink l p.1 = some p.2 ∨ (lastWithLink l p.1 = none ∧ p ∈ m0)) := by
  induction l with
  | nil =>
    intro m0 hm0
    refine ⟨rfl, fun p hp => ⟨hm0 p hp, Or.inr ⟨rfl, hp⟩⟩⟩
  | cons x xs ih =>
    intro m0 hm0
    have hm0' : ∀ p ∈ mapUpsert m0 x.link x, p.2.link = p.1 :=
      upsert_link_inv hm0 rfl
    obtain ⟨ihk, ihm⟩ := ih (mapUpsert m0 x.link x) hm0'
    constructor
    · simp only [List.foldl_cons, List.map_cons]
      rw [ihk, upsert_keys]
    · intro p hp
      simp only [List.foldl_cons] at hp
      obtain ⟨hlink, hcase⟩ := ihm p hp
      refine ⟨hlink, ?_⟩
      rcases hcase with hlast | ⟨hnone, hpm⟩
      · exact Or.inl (lastWithLink_cons_of_some hlast)
      · by_cases hxk : x.link = p.1
        · left
          have hpv : p = (x.link, x) := upsert_mem_key_eq hpm hxk.symm
          rw [lastWithLink_cons_of_none hnone, if_pos hxk, hpv]
        · right
          exact ⟨by rw [lastWithLink_cons_of_none hnone, if_neg hxk],
            upsert_mem_key_ne hpm (fun hc => hxk hc.symm)⟩

theorem foldl_insertKey_nodup (ks : List String) :
    ∀ acc : List String, acc.Nodup → (ks.foldl insertKey acc).Nodup := by
  induction ks with
  | nil => exact fun acc h => h
  | cons k ks ih =>
    intro acc h
    apply ih
    unfold insertKey
    by_cases hk : k ∈ acc
    · rwa [if_pos hk]
    · rw [if_neg hk, List.nodup_append]
      refine ⟨h, List.nodup_singleton k, ?_⟩
      intro a ha hb
      rw [List.mem_singleton] at hb
      subst hb
      exact hk ha

theorem dedupe_map_link (l : List Listing) :
    (dedupe l).map Listing.link = firstSeen (l.map Listing.link) := by
  obtain ⟨hk, hm⟩ := dedupe_core l [] (fun p hp => absurd hp (List.not_mem_nil p))
  unfold dedupe firstSeen
  rw [List.map_map]
  have hcongr : (l.foldl (fun m item => mapUpsert m item.link item) []).map
        (Listing.link ∘ Prod.snd)
      = (l.foldl (fun m item => mapUpsert m item.link item) []).map Prod.fst :=
    List.map_congr_left (fun p hp => (hm p hp).1)
  rw [hcongr, hk]
  rfl

theorem dedupe_links_nodup (l : List Listing) :
    ((dedupe l).map Listing.link).Nodup := by
  rw [dedupe_map_link]
  exact foldl_insertKey_nodup _ [] List.nodup_nil

theorem dedupe_last (l : List Listing) :
    ∀ r ∈ dedupe l, lastWithLink l r.link = some r := by
  intro r hr
  unfold dedupe at hr
  rcases List.mem_map.1 hr with ⟨p, hp, rfl⟩
  obtain ⟨-, hm⟩ := dedupe_core l [] (fun p hp => absurd hp (List.not_mem_nil p))
  obtain ⟨hlink, hcase⟩ := hm p hp
  rcases hcase with h | ⟨-, h⟩
  · rwa [hlink]
  · exact absurd h (List.not_mem_nil p)

theorem foldl_fresh (l : List Listing) :
    ∀ m0 : List (String × Listing), (∀ r ∈ l, r.link ∉ m0.map Prod.fst) →
      (l.map Listing.link).Nodup →
      l.foldl (fun m item => mapUpsert m item.link item) m0
        = m0 ++ l.map (fun r => (r.link, r)) := by
  induction l with
  | nil => intro m0 _ _; simp
  | cons x xs ih =>
    intro m0 hfresh hnd
    simp only [List.map_cons, List.nodup_cons] at hnd
    obtain ⟨hxnotin, hndtl⟩ := hnd
    have hx : x.link ∉ m0.map Prod.fst := hfresh x (List.mem_cons_self x xs)
    have hstep : mapUpsert m0 x.link x = m0 ++ [(x.link, x)] := by
      unfold mapUpsert
      rw [if_neg hx]
    simp only [List.foldl_cons, hstep]
    rw [ih (m0 ++ [(x.link, x)]) ?_ hndtl]
    · simp
    · intro r hr
      rw [List.map_append, List.mem_append]
      rintro (hc | hc)
      · exact hfresh r (List.mem_cons_of_mem x hr) hc
      · simp only [List.map_cons, List.map_nil, List.mem_singleton] at hc
        exact hxnotin (hc ▸ List.mem_map_of_mem Listing.link hr)

theorem dedupe_eq_self_of_nodup {l : List Listing}
    (h : (l.map Listing.link).Nodup) : dedupe l = l := by
  unfold dedupe
  rw [foldl_fresh l [] (fun r _ hc => absurd hc (by simp)) h]
  rw [List.nil_append, List.map_map]
  have hid : (Prod.snd ∘ fun r : Listing => (r.link, r)) = id := rfl
  rw [hid, List.map_id]

/-! ## Run-trace lemmas -/

theorem pagesFrom_length (i k : Nat) : (pagesFrom i k).length = k := by
  induction k generalizing i with
  | zero => rfl
  | succ k ih => simp [pagesFrom, ih]

theorem pagesFrom_mem {i k p : Nat} (h : p ∈ pagesFrom i k) : i ≤ p ∧ p < i + k := by
  induction k generalizing i with
  | zero => cases h
  | succ k ih =>
    simp only [pagesFrom, List.mem_cons] at h
    rcases h with rfl | h
    · omega
    · obtain ⟨h1, h2⟩ := ih h
      omega

theorem writesOf_append (a b : List Event) :
    writesOf (a ++ b) = writesOf a ++ writesOf b := by
  induction a with
  | nil => rfl
  | cons e a ih => cases e <;> simp [writesOf, ih]

theorem writesOf_map_write (f : Nat → Job) (l : List Nat) :
    writesOf (l.map (fun p => Event.write (f p))) = l.map f := by
  induction l with
  | nil => rfl
  | cons p l ih => simp [writesOf, ih]

theorem progressOf_le_100 {i m : Nat} (h : i ≤ m) : progressOf i m ≤ 100 := by
  unfold progressOf
  rcases Nat.eq_zero_or_pos m with rfl | hm
  · have hi : i = 0 := Nat.le_zero.mp h
    subst hi
    simp
  · have h2 : 0 < 2 * m := by omega
    have hlt : (200 * i + m) / (2 * m) < 101 := by
      rw [Nat.div_lt_iff_lt_mul h2]
      omega
    omega

theorem progressOf_mono (i m : Nat) : progressOf i m ≤ progressOf (i + 1) m :=
  Nat.div_le_div_right (by omega)

/-- The writes emitted by the pagination loop are exactly the per-page
`running` records for consecutive pages starting at `i`, at least one of them
when an iteration was allowed. -/
theorem loop_shape (d : Driver) (m : Nat) :
    ∀ (fuel i : Nat) (acc : List Listing), ∃ k, k ≤ fuel ∧ (fuel = 0 ∨ 1 ≤ k) ∧
      (loop d m fuel i acc).1
        = (pagesFrom i k).map (fun p => Event.write (runningJob p m)) := by
  intro fuel
  induction fuel with
  | zero => exact fun i acc => ⟨0, Nat.le_refl 0, Or.inl rfl, rfl⟩
  | succ fuel ih =>
    intro i acc
    have hone : ∃ k, k ≤ fuel + 1 ∧ (fuel + 1 = 0 ∨ 1 ≤ k) ∧
        ([Event.write (runningJob i m)] : List Event)
          = (pagesFrom i k).map (fun p => Event.write (runningJob p m)) :=
      ⟨1, by omega, Or.inr (Nat.le_refl 1), rfl⟩
    simp only [loop]
    cases hev : d.evalPage i with
    | error e => exact hone
    | ok anchors =>
      dsimp only
      by_cases hi : i < m
      · rw [if_pos hi]
        cases hnv : d.nextVisible i with
        | error e => exact hone
        | ok b =>
          cases b with
          | false => exact hone
          | true =>
            cases hcl : d.clickNext i with
            | error e => exact hone
            | ok u =>
              obtain ⟨k, hk, hk1, heq⟩ := ih (i + 1) (acc ++ extractPage anchors)
              exact ⟨k + 1, by omega, Or.inr (by omega), by simp [pagesFrom, heq]⟩
      · rw [if_neg hi]
        exact hone

/-- Decomposition of every possible write sequence of one job: the `queued`
and initial `running` writes, then per-page `running` writes for pages
`1..k` with `k ≤ maxPages`, then at most one terminal write. -/
theorem trace_shape (d : Driver) (m : Nat) :
    ∃ (k : Nat) (tail : List Job), k ≤ m ∧
      writesOf (jobTrace d m)
        = queuedJob :: startJob ::
            ((pagesFrom 1 k).map (fun p => runningJob p m) ++ tail) ∧
      (tail = [] ∨ (∃ e, tail = [failedJob e]) ∨ (∃ L, tail = [completedJob L])) := by
  unfold jobTrace runScraper
  cases hl : d.launch with
  | error e => exact ⟨0, [], Nat.zero_le m, rfl, Or.inl rfl⟩
  | ok _ =>
    cases hn : d.newPage with
    | error e => exact ⟨0, [], Nat.zero_le m, rfl, Or.inl rfl⟩
    | ok _ =>
      unfold tryBody
      cases hnav : d.nav with
      | error e =>
        refine ⟨0, [failedJob e], Nat.zero_le m, ?_, Or.inr (Or.inl ⟨e, rfl⟩)⟩
        simp [writesOf, writesOf_append, pagesFrom]
      | ok _ =>
        obtain ⟨k, hk, -, hw⟩ := loop_shape d m m 1 []
        cases hres : (loop d m m 1 []).2 with
        | error e =>
          refine ⟨k, [failedJob e], hk, ?_, Or.inr (Or.inl ⟨e, rfl⟩)⟩
          simp [writesOf, writesOf_append, hw, hres, writesOf_map_write]
        | ok acc =>
          refine ⟨k, [completedJob (dedupe acc)], hk, ?_,
            Or.inr (Or.inr ⟨_, rfl⟩)⟩
          simp [writesOf, writesOf_append, hw, hres, writesOf_map_write]

/-- Relation between successive job-store writes: progress may only drop on
the write that moves the job into `failed` (which resets it to 0). -/
def progOk (w1 w2 : Job) : Prop :=
  (w2.status = .failed ∧ w2.progress = 0) ∨ w1.progress ≤ w2.progress

instance : DecidableRel progOk := fun w1 w2 => by
  unfold progOk
  exact inferInstance

theorem chain_pages (m : Nat) :
    ∀ k i, List.Chain' progOk ((pagesFrom i k).map (fun p => runningJob p m)) := by
  intro k
  induction k with
  | zero => intro i; exact List.chain'_nil
  | succ k ih =>
    intro i
    simp only [pagesFrom, List.map_cons]
    rw [List.chain'_cons']
    refine ⟨?_, ih (i + 1)⟩
    intro y hy
    cases k with
    | zero => cases hy
    | succ k' =>
      simp only [pagesFrom, List.map_cons, List.head?_cons, Option.mem_def,
        Option.some.injEq] at hy
      subst hy
      exact Or.inr (progressOf_mono i m)

theorem mem_of_getLast? {α : Type _} {l : List α} {x : α}
    (h : x ∈ l.getLast?) : x ∈ l := by
  obtain ⟨hne, rfl⟩ := List.mem_getLast?_eq_getLast h
  exact List.getLast_mem hne

/-- Every value ever stored for a job has `progress ≤ 100`. -/
theorem trace_progress_le (d : Driver) (m : Nat) :
    ∀ w ∈ writesOf (jobTrace d m), w.progress ≤ 100 := by
  obtain ⟨k, tail, hk, heq, htail⟩ := trace_shape d m
  intro w hw
  rw [heq] at hw
  simp only [List.mem_cons, List.mem_append, List.mem_map] at hw
  rcases hw with rfl | rfl | ⟨p, hp, rfl⟩ | hw
  · exact Nat.zero_le 100
  · exact Nat.zero_le 100
  · have hpm : p ≤ m := by
      obtain ⟨h1, h2⟩ := pagesFrom_mem hp
      omega
    exact progressOf_le_100 hpm
  · rcases htail with rfl | ⟨e, rfl⟩ | ⟨L, rfl⟩
    · cases hw
    · rw [List.mem_singleton] at hw
      subst hw
      exact Nat.zero_le 100
    · rw [List.mem_singleton] at hw
      subst hw
      exact Nat.le_refl 100

/-- A driver for which the whole session succeeds, each page has the anchors
given by `pages`, and the "next" control is visible exactly for pages before
`j` — so pagination breaks upon finishing page `j`. -/
def stopDriver (j : Nat) (pages : Nat → List Anchor) : Driver :=
  { launch := .ok (), newPage := .ok (), nav := .ok ()
    evalPage := fun i => .ok (pages i)
    nextVisible := fun i => .ok (decide (i < j))
    clickNext := fun _ => .ok () }

theorem stopDriver_evalPage (j : Nat) (pages : Nat → List Anchor) (i : Nat) :
    (stopDriver j pages).evalPage i = .ok (pages i) := rfl

theorem stopDriver_nextVisible (j : Nat) (pages : Nat → List Anchor) (i : Nat) :
    (stopDriver j pages).nextVisible i = .ok (decide (i < j)) := rfl

theorem stopDriver_clickNext (j : Nat) (pages : Nat → List Anchor) (i : Nat) :
    (stopDriver j pages).clickNext i = .ok () := rfl

theorem stop_loop (j : Nat) (pages : Nat → List Anchor) (m : Nat) :
    ∀ (fuel i : Nat) (acc : List Listing), i ≤ j → j < m → j < i + fuel →
      (loop (stopDriver j pages) m fuel i acc).1
          = (pagesFrom i (j + 1 - i)).map (fun p => Event.write (runningJob p m)) ∧
        ∃ L, (loop (stopDriver j pages) m fuel i acc).2 = Except.ok L := by
  intro fuel
  induction fuel with
  | zero => intro i acc h1 h2 h3; omega
  | succ fuel ih =>
    intro i acc hij hjm hfuel
    have him : i < m := Nat.lt_of_le_of_lt hij hjm
    simp only [loop, stopDriver_evalPage, stopDriver_nextVisible,
      stopDriver_clickNext]
    rw [if_pos him]
    by_cases hstop : i < j
    · rw [decide_eq_true hstop]
      obtain ⟨hw, L, hL⟩ := ih (i + 1) (acc ++ extractPage (pages i))
        (by omega) hjm (by omega)
      have harith : j + 1 - i = (j - (i + 1)) + 1 + 1 := by omega
      have harith2 : j + 1 - (i + 1) = j - (i + 1) + 1 := by omega
      rw [harith2] at hw
      constructor
      · dsimp only
        rw [hw, harith]
        simp [pagesFrom]
      · exact ⟨L, hL⟩
    · have hij' : j + 1 - i = 1 := by omega
      rw [decide_eq_false hstop]
      rw [hij']
      exact ⟨rfl, _, rfl⟩

/-- A driver for which everything succeeds, pages have no anchors, and the
next-page control is always visible. -/
def okDriver : Driver :=
  { launch := .ok (), newPage := .ok (), nav := .ok ()
    evalPage := fun _ => .ok []
    nextVisible := fun _ => .ok true
    clickNext := fun _ => .ok () }

/-- A driver whose in-page evaluation throws on every page. -/
def evalFailDriver : Driver :=
  { okDriver with evalPage := fun _ => .error "Execution context was destroyed" }

/-- A driver whose browser launch rejects. -/
def launchFailDriver : Driver :=
  { okDriver with launch := .error "Failed to launch the browser process" }

/-! ## Claim theorems -/

/-- C6: `dedupe` returns a sequence unique by `link`; the order of the
surviving records is the first-seen order of their links, and each surviving
record is the *last* input record carrying its link (last-write-wins values at
first-occurrence positions). -/
theorem C6_dedupe_last_value_first_position (l : List Listing) :
    (dedupe l).map Listing.link = firstSeen (l.map Listing.link) ∧
      ((dedupe l).map Listing.link).Nodup ∧
      ∀ r ∈ dedupe l, lastWithLink l r.link = some r :=
  ⟨dedupe_map_link l, dedupe_links_nodup l, dedupe_last l⟩

/-- Two records sharing a link, distinguishable by their other fields. -/
def recA : Listing := { title := "first", price := "1,000", area := "N/A", link := "L" }

/-- The later duplicate of [[recA]]'s link. -/
def recB : Listing := { title := "second", price := "2,000", area := "N/A", link := "L" }

/-- Witness for C6 at a concrete duplicate-link input: the survivor is the
later record `recB`. -/
theorem C6_dedupe_last_value_first_position_witness :
    recB ∈ dedupe [recA, recB] ∧
      lastWithLink [recA, recB] recB.link = some recB :=
  ⟨by decide, (C6_dedupe_last_value_first_position [recA, recB]).2.2 recB (by decide)⟩

/-- C7: deduplication is idempotent. -/
theorem C7_dedupe_idempotent (l : List Listing) : dedupe (dedupe l) = dedupe l :=
  dedupe_eq_self_of_nodup (dedupe_links_nodup l)

/-- C8: the extractor drops any anchor whose text has no thousands-grouped
numeric token or contains the category-marker phrase; `"Apartment 5000"`
yields no record while `"Apartment 300,000"` yields one with
`price = "300,000"`. -/
theorem C8_extractor_requires_grouped_price :
    (∀ a : Anchor,
        strIncludes a.innerText catMarker = true ∨ priceMatch a.innerText = none →
          extractOne a = none) ∧
    (∀ (ht : Option String) (href : String),
        extractOne ⟨"Apartment 5000", ht, href⟩ = none) ∧
    (∀ (ht : Option String) (href : String),
        (extractOne ⟨"Apartment 300,000", ht, href⟩).map Listing.price
          = some "300,000") := by
  refine ⟨?_, ?_, ?_⟩
  · intro a h
    rcases h with h | h
    · simp [extractOne, h]
    · by_cases hm : strIncludes a.innerText catMarker
      · simp [extractOne, hm]
      · simp [extractOne, hm, h]
  · intro ht href
    have h1 : strIncludes "Apartment 5000" catMarker = false := by decide
    have h2 : priceMatch "Apartment 5000" = none := by decide
    simp [extractOne, h1, h2]
  · intro ht href
    have h1 : strIncludes "Apartment 300,000" catMarker = false := by decide
    have h2 : priceMatch "Apartment 300,000" = some "300,000" := by decide
    simp [extractOne, h1, h2]

/-- Witness for C8 at a concrete anchor: text containing the category marker
is dropped even though it has a grouped price token. -/
theorem C8_extractor_requires_grouped_price_witness :
    strIncludes "عقارات في الرياض 300,000" catMarker = true ∧
      extractOne ⟨"عقارات في الرياض 300,000", none, "u"⟩ = none :=
  ⟨by decide,
    C8_extractor_requires_grouped_price.1 ⟨"عقارات في الرياض 300,000", none, "u"⟩
      (Or.inl (by decide))⟩

/-- C1 (divergence evidence): when `chromium.launch()` or `browser.newPage()`
rejects, both calls sit *outside* the `try`/`catch`/`finally`, so the `catch`
never runs: the job's entry keeps the initial `running`/`progress 0` record
forever, no `failed` write ever happens, and the browser is never closed.
This contradicts the claim that the job transitions to `Failed`. -/
theorem C1_session_failure_leaves_running (d : Driver) (m : Nat) (e : String)
    (h : d.launch = .error e ∨ (d.launch = .ok () ∧ d.newPage = .error e)) :
    writesOf (jobTrace d m) = [queuedJob, startJob] ∧
      startJob.status = .running ∧ startJob.progress = 0 ∧
      (∀ w ∈ writesOf (jobTrace d m), w.status ≠ .failed) ∧
      Event.close ∉ jobTrace d m := by
  have htr : jobTrace d m = [Event.write queuedJob, Event.write startJob] := by
    unfold jobTrace runScraper
    rcases h with h | ⟨h1, h2⟩
    · rw [h]
    · rw [h1, h2]
  rw [htr]
  refine ⟨rfl, rfl, rfl, ?_, by decide⟩
  intro w hw
  have : w = queuedJob ∨ w = startJob := by
    rcases List.mem_cons.1 hw with rfl | hw
    · exact Or.inl rfl
    · rcases List.mem_cons.1 hw with rfl | hw
      · exact Or.inr rfl
      · cases hw
  rcases this with rfl | rfl <;> decide

/-- Witness for C1 at a concrete driver whose launch rejects. -/
theorem C1_session_failure_leaves_running_witness :
    writesOf (jobTrace launchFailDriver 3) = [queuedJob, startJob] ∧
      (∀ w ∈ writesOf (jobTrace launchFailDriver 3), w.status ≠ .failed) ∧
      Event.close ∉ jobTrace launchFailDriver 3 := by
  obtain ⟨h1, -, -, h4, h5⟩ :=
    C1_session_failure_leaves_running launchFailDriver 3
      "Failed to launch the browser process" (Or.inl rfl)
  exact ⟨h1, h4, h5⟩

/-- C3: whenever the browser session was acquired (both `chromium.launch()`
and `browser.newPage()` succeeded), the run's last event is `browser.close()`
— the `finally` block runs on completion, early stop, and every thrown
error. -/
theorem C3_browser_closed_after_session (d : Driver) (m : Nat)
    (h1 : d.launch = .ok ()) (h2 : d.newPage = .ok ()) :
    (jobTrace d m).getLast? = some Event.close := by
  unfold jobTrace runScraper
  rw [h1, h2]
  show ((Event.write queuedJob :: Event.write startJob :: tryBody d m)
      ++ [Event.close]).getLast? = some Event.close
  exact List.getLast?_concat _

/-- Witness for C3 at a concrete succeeding driver. -/
theorem C3_browser_closed_after_session_witness :
    (jobTrace okDriver 2).getLast? = some Event.close :=
  C3_browser_closed_after_session okDriver 2 rfl rfl

/-- C5: every job-store write except possibly the final one has status
`queued` or `running`; hence a `completed`/`failed` write is never followed
by another write — terminal states are reached only from `queued`/`running`
and are never left. -/
theorem C5_terminal_write_is_last (d : Driver) (m : Nat) :
    ∀ w ∈ (writesOf (jobTrace d m)).dropLast,
      w.status = .queued ∨ w.status = .running := by
  obtain ⟨k, tail, hk, heq, htail⟩ := trace_shape d m
  have hqsr : ∀ w ∈ queuedJob :: startJob ::
      (pagesFrom 1 k).map (fun p => runningJob p m),
      w.status = .queued ∨ w.status = .running := by
    intro w hw
    rcases List.mem_cons.1 hw with rfl | hw
    · exact Or.inl rfl
    rcases List.mem_cons.1 hw with rfl | hw
    · exact Or.inr rfl
    rcases List.mem_map.1 hw with ⟨p, hp, rfl⟩
    exact Or.inr rfl
  intro w hw
  rw [heq] at hw
  rcases htail with rfl | ⟨e, rfl⟩ | ⟨L, rfl⟩
  · rw [List.append_nil] at hw
    exact hqsr w (List.dropLast_subset _ hw)
  · rw [show queuedJob :: startJob ::
        ((pagesFrom 1 k).map (fun p => runningJob p m) ++ [failedJob e])
        = (queuedJob :: startJob ::
            (pagesFrom 1 k).map (fun p => runningJob p m)) ++ [failedJob e]
        from rfl, List.dropLast_concat] at hw
    exact hqsr w hw
  · rw [show queuedJob :: startJob ::
        ((pagesFrom 1 k).map (fun p => runningJob p m) ++ [completedJob L])
        = (queuedJob :: startJob ::
            (pagesFrom 1 k).map (fun p => runningJob p m)) ++ [completedJob L]
        from rfl, List.dropLast_concat] at hw
    exact hqsr w hw

/-- Witness for C5: a non-final write of a concrete completed run. -/
theorem C5_terminal_write_is_last_witness :
    startJob.status = .queued ∨ startJob.status = .running :=
  C5_terminal_write_is_last okDriver 1 startJob (by decide)

/-- C2 counterexample: on a run whose in-page evaluation throws during page 1
(with `maxPages = 1`), the observable progress sequence is `0, 0, 100, 0` —
the transition into `failed` resets progress from 100 to 0, so progress over
the job's whole lifetime is *not* monotonically non-decreasing. -/
theorem C2_progress_drops_into_failed :
    ¬ (List.Chain' (fun w1 w2 : Job => w1.progress ≤ w2.progress)
          (writesOf (jobTrace evalFailDriver 1)) ∧
        ∀ w ∈ writesOf (jobTrace evalFailDriver 1), w.progress ≤ 100) := by
  rintro ⟨hc, -⟩
  have heq : writesOf (jobTrace evalFailDriver 1)
      = [queuedJob, startJob, runningJob 1 1,
          failedJob "Execution context was destroyed"] := by decide
  rw [heq, List.chain'_cons, List.chain'_cons, List.chain'_cons] at hc
  exact absurd hc.2.2.1 (by decide)

/-- C2 amended: progress is always in `[0,100]`, and over successive writes it
is non-decreasing *except* for the write that moves the job into `failed`,
which resets progress to 0. -/
theorem C2_progress_monotone_except_failure (d : Driver) (m : Nat) :
    List.Chain' progOk (writesOf (jobTrace d m)) ∧
      ∀ w ∈ writesOf (jobTrace d m), w.progress ≤ 100 := by
  refine ⟨?_, trace_progress_le d m⟩
  obtain ⟨k, tail, hk, heq, htail⟩ := trace_shape d m
  have hb := trace_progress_le d m
  rw [heq] at hb ⊢
  rw [List.chain'_cons']
  refine ⟨?_, ?_⟩
  · intro y hy
    simp only [List.head?_cons, Option.mem_def, Option.some.injEq] at hy
    subst hy
    exact Or.inr (Nat.le_refl 0)
  rw [List.chain'_cons']
  refine ⟨?_, ?_⟩
  · intro y hy
    cases k with
    | zero =>
      simp only [pagesFrom, List.map_nil, List.nil_append] at hy
      rcases htail with rfl | ⟨e, rfl⟩ | ⟨L, rfl⟩
      · cases hy
      · simp only [List.head?_cons, Option.mem_def, Option.some.injEq] at hy
        subst hy
        exact Or.inl ⟨rfl, rfl⟩
      · simp only [List.head?_cons, Option.mem_def, Option.some.injEq] at hy
        subst hy
        exact Or.inr (Nat.zero_le _)
    | succ k' =>
      simp only [pagesFrom, List.map_cons, List.cons_append, List.head?_cons,
        Option.mem_def, Option.some.injEq] at hy
      subst hy
      exact Or.inr (Nat.zero_le _)
  · rw [List.chain'_append]
    refine ⟨chain_pages m k 1, ?_, ?_⟩
    · rcases htail with rfl | ⟨e, rfl⟩ | ⟨L, rfl⟩ <;>
        simp [List.chain'_singleton]
    · intro x hx y hy
      rcases htail with rfl | ⟨e, rfl⟩ | ⟨L, rfl⟩
      · cases hy
      · simp only [List.head?_cons, Option.mem_def, Option.some.injEq] at hy
        subst hy
        exact Or.inl ⟨rfl, rfl⟩
      · simp only [List.head?_cons, Option.mem_def, Option.some.injEq] at hy
        subst hy
        have hxmem : x ∈ (pagesFrom 1 k).map (fun p => runningJob p m) :=
          mem_of_getLast? hx
        refine Or.inr ?_
        show x.progress ≤ 100
        exact hb x (List.mem_cons_of_mem _ (List.mem_cons_of_mem _
          (List.mem_append_left _ hxmem)))

/-- Witness for C2 (amended) at a concrete driver and write. -/
theorem C2_progress_monotone_except_failure_witness :
    List.Chain' progOk (writesOf (jobTrace okDriver 1)) ∧
      startJob.progress ≤ 100 :=
  ⟨(C2_progress_monotone_except_failure okDriver 1).1,
    (C2_progress_monotone_except_failure okDriver 1).2 startJob (by decide)⟩

/-- When the session starts successfully and `maxPages ≥ 1`, the page-1
progress record is among the stored values. -/
theorem first_page_write_mem (d : Driver) (m : Nat) (hm : 1 ≤ m)
    (hl : d.launch = .ok ()) (hn : d.newPage = .ok ())
    (hnav : d.nav = .ok ()) :
    runningJob 1 m ∈ writesOf (jobTrace d m) := by
  unfold jobTrace runScraper
  rw [hl, hn]
  simp only [tryBody]
  rw [hnav]
  obtain ⟨k, hk, hk1, hw⟩ := loop_shape d m m 1 []
  have hk1' : 1 ≤ k := by
    rcases hk1 with h0 | h1
    · omega
    · exact h1
  have hmem : runningJob 1 m ∈ (pagesFrom 1 k).map (fun p => runningJob p m) := by
    cases k with
    | zero => omega
    | succ k' =>
      simp only [pagesFrom, List.map_cons]
      exact List.mem_cons_self _ _
  cases hres : (loop d m m 1 []).2 with
  | error e =>
    simp only [hres, writesOf, writesOf_append, hw, writesOf_map_write,
      List.append_nil]
    exact List.mem_cons_of_mem _ (List.mem_cons_of_mem _
      (List.mem_append.2 (Or.inl hmem)))
  | ok acc =>
    simp only [hres, writesOf, writesOf_append, hw, writesOf_map_write,
      List.append_nil]
    exact List.mem_cons_of_mem _ (List.mem_cons_of_mem _
      (List.mem_append.2 (Or.inl hmem)))

/-- C9: a falsy `limit_pages` (absent/`null`/`0`) resolves to a page limit of
exactly 1, and such a run (once the session starts) performs at least one
per-page scrape — `limit_pages = 0` does not mean zero pages. -/
theorem C9_falsy_limit_scrapes_one_page (lp : Option Int)
    (h : lp = none ∨ lp = some 0) :
    resolveMaxPages lp = 1 ∧
      ∀ d : Driver, d.launch = .ok () → d.newPage = .ok () → d.nav = .ok () →
        1 ≤ (pageWrites (writesOf (jobTrace d (resolveMaxPages lp).toNat))).length := by
  have h1 : resolveMaxPages lp = 1 := by
    rcases h with rfl | rfl <;> rfl
  refine ⟨h1, ?_⟩
  intro d hl hn hnav
  rw [h1]
  show 1 ≤ (pageWrites (writesOf (jobTrace d 1))).length
  have hmem : runningJob 1 1 ∈ writesOf (jobTrace d 1) :=
    first_page_write_mem d 1 (Nat.le_refl 1) hl hn hnav
  have hfil : runningJob 1 1 ∈ pageWrites (writesOf (jobTrace d 1)) :=
    List.mem_filter.2 ⟨hmem, rfl⟩
  exact List.length_pos.2 (List.ne_nil_of_mem hfil)

/-- Witness for C9 at `limit_pages = 0` and a concrete succeeding driver. -/
theorem C9_falsy_limit_scrapes_one_page_witness :
    resolveMaxPages (some 0) = 1 ∧
      1 ≤ (pageWrites (writesOf
            (jobTrace okDriver (resolveMaxPages (some 0)).toNat))).length :=
  ⟨(C9_falsy_limit_scrapes_one_page (some 0) (Or.inr rfl)).1,
    (C9_falsy_limit_scrapes_one_page (some 0) (Or.inr rfl)).2 okDriver rfl rfl rfl⟩

/-- C10: with a page limit of 1, the page-1 update writes status `running`
together with `progress = 100` (`Math.round(1/1*100)`), and this value is
stored before any terminal write — so a poll can see `progress = 100` on a
non-`completed` job. -/
theorem C10_progress_100_while_running :
    (runningJob 1 1).status = .running ∧ (runningJob 1 1).progress = 100 ∧
      (runningJob 1 1).status ≠ .completed ∧
      ∀ d : Driver, d.launch = .ok () → d.newPage = .ok () → d.nav = .ok () →
        runningJob 1 1 ∈ writesOf (jobTrace d 1) := by
  refine ⟨rfl, by decide, by decide, ?_⟩
  intro d hl hn hnav
  exact first_page_write_mem d 1 (Nat.le_refl 1) hl hn hnav

/-- Witness for C10 at a concrete succeeding driver. -/
theorem C10_progress_100_while_running_witness :
    (runningJob 1 1).progress = 100 ∧
      runningJob 1 1 ∈ writesOf (jobTrace okDriver 1) :=
  ⟨C10_progress_100_while_running.2.1,
    C10_progress_100_while_running.2.2.2 okDriver rfl rfl rfl⟩

theorem stopDriver_launch (j : Nat) (pages : Nat → List Anchor) :
    (stopDriver j pages).launch = .ok () := rfl

theorem stopDriver_newPage (j : Nat) (pages : Nat → List Anchor) :
    (stopDriver j pages).newPage = .ok () := rfl

theorem stopDriver_nav (j : Nat) (pages : Nat → List Anchor) :
    (stopDriver j pages).nav = .ok () := rfl

theorem pageWrites_shape (ps : List Nat) (m : Nat) (t : Job)
    (ht : t.totalPages = none) :
    pageWrites (queuedJob :: startJob :: (ps.map (fun p => runningJob p m) ++ [t]))
      = ps.map (fun p => runningJob p m) := by
  unfold pageWrites
  rw [List.filter_cons_of_neg (by decide),
    List.filter_cons_of_neg (by decide), List.filter_append,
    List.filter_cons_of_neg (by rw [ht]; decide),
    List.filter_nil, List.append_nil,
    List.filter_eq_self.2 ?_]
  intro a ha
  rcases List.mem_map.1 ha with ⟨p, hp, rfl⟩
  rfl

/-- Anchor-free pages, for concrete runs. -/
def emptyPages : Nat → List Anchor := fun _ => []

/-- C4 counterexample: in a 3-page run where the next control is already
missing after page 1, the job does complete — but the final stored record
(the `completed` write replaces the whole object) carries *no* `totalPages`
key, so the final state's `totalPages` is not the requested maximum 3. -/
theorem C4_totalPages_absent_in_final_state :
    (writesOf (jobTrace (stopDriver 1 emptyPages) 3)).getLast?
        = some (completedJob []) ∧
      (completedJob []).status = .completed ∧
      (completedJob ([] : List Listing)).totalPages ≠ some 3 := by
  refine ⟨by decide, rfl, by decide⟩

/-- C4 amended: early pagination stop is not an error — the job still reaches
`completed` (progress 100, no error); every write that carries a `totalPages`
value reports the originally requested maximum (never the traversed count, of
which there are `j < m` page writes); but the final `completed` record itself
omits `totalPages` entirely. -/
theorem C4_early_stop_completes :
    (∀ (d : Driver) (m : Nat), ∀ w ∈ writesOf (jobTrace d m),
        w.totalPages = none ∨ w.totalPages = some m) ∧
    ∀ (m j : Nat) (pages : Nat → List Anchor), 1 ≤ j → j < m →
      ∃ L, (writesOf (jobTrace (stopDriver j pages) m)).getLast?
            = some (completedJob L) ∧
        (completedJob L).status = .completed ∧
        (completedJob L).error = none ∧
        (completedJob L).progress = 100 ∧
        (completedJob L).totalPages = none ∧
        (pageWrites (writesOf (jobTrace (stopDriver j pages) m))).length = j := by
  constructor
  · intro d m w hw
    obtain ⟨k, tail, hk, heq, htail⟩ := trace_shape d m
    rw [heq] at hw
    rcases List.mem_cons.1 hw with rfl | hw
    · exact Or.inl rfl
    rcases List.mem_cons.1 hw with rfl | hw
    · exact Or.inl rfl
    rcases List.mem_append.1 hw with hw | hw
    · rcases List.mem_map.1 hw with ⟨p, hp, rfl⟩
      exact Or.inr rfl
    · rcases htail with rfl | ⟨e, rfl⟩ | ⟨L, rfl⟩
      · cases hw
      · rw [List.mem_singleton] at hw
        subst hw
        exact Or.inl rfl
      · rw [List.mem_singleton] at hw
        subst hw
        exact Or.inl rfl
  · intro m j pages hj1 hjm
    obtain ⟨hw, L0, hL0⟩ := stop_loop j pages m m 1 [] hj1 hjm (by omega)
    have hj' : j + 1 - 1 = j := by omega
    rw [hj'] at hw
    have htrw : writesOf (jobTrace (stopDriver j pages) m)
        = queuedJob :: startJob ::
            ((pagesFrom 1 j).map (fun p => runningJob p m)
              ++ [completedJob (dedupe L0)]) := by
      unfold jobTrace runScraper
      simp only [stopDriver_launch, stopDriver_newPage, tryBody, stopDriver_nav,
        hL0, hw, writesOf, writesOf_append, writesOf_map_write, List.append_nil]
    refine ⟨dedupe L0, ?_, rfl, rfl, rfl, rfl, ?_⟩
    · rw [htrw]
      rw [show queuedJob :: startJob ::
          ((pagesFrom 1 j).map (fun p => runningJob p m)
            ++ [completedJob (dedupe L0)])
          = (queuedJob :: startJob ::
              (pagesFrom 1 j).map (fun p => runningJob p m))
            ++ [completedJob (dedupe L0)] from rfl]
      exact List.getLast?_concat _
    · rw [htrw, pageWrites_shape _ _ _ rfl, List.length_map, pagesFrom_length]

/-- Witness for C4 (amended) at `maxPages = 3`, stop after page 1. -/
theorem C4_early_stop_completes_witness :
    ((completedJob []).totalPages = none ∨ (completedJob []).totalPages = some 3) ∧
      ∃ L, (writesOf (jobTrace (stopDriver 1 emptyPages) 3)).getLast?
            = some (completedJob L) ∧
        (completedJob L).status = .completed ∧
        (completedJob L).error = none ∧
        (completedJob L).progress = 100 ∧
        (completedJob L).totalPages = none ∧
        (pageWrites (writesOf (jobTrace (stopDriver 1 emptyPages) 3))).length = 1 :=
  ⟨C4_early_stop_completes.1 (stopDriver 1 emptyPages) 3 (completedJob [])
      (by decide),
    C4_early_stop_completes.2 3 1 emptyPages (by decide) (by decide)⟩
